import Mathlib

/-!
Verification of the store-monitoring core (interval algebra, business-window
builder, status-segment builder, accumulator, report assembler).

Shallow embedding conventions:
* Instants are integers counting microseconds (the resolution of Python
  datetimes); all instants are UTC unless named local.
* A timezone with no DST transition in effect is modelled as a fixed offset
  off in microseconds: local wall clock = UTC instant + off, so a local wall
  clock t converts to UTC as t - off.
* Ping status is a string, as in the source (the ORM enum has values
  "active" and "inactive"; the accumulator compares against "active").
* Python sorted is stable; it is modelled by List.insertionSort on the
  same key, which is stable in the same way.
* Database queries are modelled as pure functions over the lists of records
  they select from, reproducing the WHERE / ORDER BY / LIMIT clauses.
-/

namespace StoreMonitor

/-- Microseconds in one minute. -/
def usPerMin : Int := 60000000

/-- Microseconds in one hour. -/
def usPerHour : Int := 3600000000

/-- Microseconds in one day. -/
def usPerDay : Int := 86400000000

/-- Microseconds from local midnight to the instant time(23, 59, 59, 999999)
used by the source as the end of a local day. -/
def endOfDayUs : Int := 86399999999

/-- Half-open UTC interval [start, stop), mirroring the Interval dataclass of
app/utils/windows.py (field end is renamed stop, end being a Lean keyword). -/
structure Interval where
  start : Int
  stop : Int
deriving DecidableEq, Repr

/-- clip from app/utils/windows.py: overlap of two intervals, none when the
intersection is empty or the intervals only touch at a boundary. -/
def clip (a b : Interval) : Option Interval :=
  let s := max a.start b.start
  let e := min a.stop b.stop
  if s ≥ e then none else some ⟨s, e⟩

/-- The sort performed by merge_overlaps: Python sorted(intervals, key=start),
a stable sort by interval start. -/
def sortByStart (l : List Interval) : List Interval :=
  List.insertionSort (fun a b => a.start ≤ b.start) l

/-- The loop body of merge_overlaps: cur is the last interval written to the
output (Python out[-1]); a new group starts exactly when the next interval
starts strictly after cur ends, otherwise cur absorbs it (end takes the max). -/
def mergeAux (cur : Interval) : List Interval → List Interval
  | [] => [cur]
  | iv :: rest =>
    if cur.stop < iv.start then cur :: mergeAux iv rest
    else mergeAux ⟨cur.start, max cur.stop iv.stop⟩ rest

/-- merge_overlaps from app/utils/windows.py: sort by start ascending, then
fold touching or overlapping intervals together. -/
def merge_overlaps (l : List Interval) : List Interval :=
  match sortByStart l with
  | [] => []
  | x :: xs => mergeAux x xs

/-- The set of integer microsecond instants covered by a list of half-open
intervals; its cardinality is the true measure of the union. -/
def covered (l : List Interval) : Finset Int :=
  l.foldr (fun iv acc => Finset.Ico iv.start iv.stop ∪ acc) ∅

/-- Sum of the signed lengths stop - start of a list of intervals. -/
def durSum (l : List Interval) : Int :=
  l.foldr (fun iv acc => (iv.stop - iv.start) + acc) 0

theorem mem_covered {l : List Interval} {x : Int} :
    x ∈ covered l ↔ ∃ iv ∈ l, iv.start ≤ x ∧ x < iv.stop := by
  induction l with
  | nil => simp [covered]
  | cons a t ih =>
    simp only [covered, List.foldr_cons, Finset.mem_union, Finset.mem_Ico] at *
    constructor
    · rintro (h | h)
      · exact ⟨a, List.mem_cons_self a t, h⟩
      · obtain ⟨iv, hm, hx⟩ := ih.mp h
        exact ⟨iv, List.mem_cons_of_mem a hm, hx⟩
    · rintro ⟨iv, hm, hx⟩
      rcases List.mem_cons.mp hm with rfl | hm
      · exact Or.inl hx
      · exact Or.inr (ih.mpr ⟨iv, hm, hx⟩)

/-- C4: clip is symmetric; a present result is contained in both arguments;
and a start at or beyond the stop after intersection yields none (intervals
that do not overlap, or touch only at a boundary, produce no overlap). -/
theorem clip_symm_contained (a b : Interval) :
    clip a b = clip b a ∧
    (∀ c, clip a b = some c →
      (a.start ≤ c.start ∧ c.stop ≤ a.stop) ∧
      (b.start ≤ c.start ∧ c.stop ≤ b.stop) ∧ c.start < c.stop) ∧
    (max a.start b.start ≥ min a.stop b.stop → clip a b = none) := by
  refine ⟨?_, ?_, ?_⟩
  · simp only [clip]
    rcases le_total a.start b.start with h1 | h1 <;>
      rcases le_total a.stop b.stop with h2 | h2 <;>
        simp [max_comm, min_comm]
  · intro c hc
    simp only [clip] at hc
    split at hc
    · exact absurd hc (by simp)
    · rename_i hlt
      cases hc
      push_neg at hlt
      refine ⟨⟨le_max_left _ _, min_le_left _ _⟩,
              ⟨le_max_right _ _, min_le_right _ _⟩, hlt⟩
  · intro h
    simp only [clip]
    split
    · rfl
    · omega

/-- Witness for C4 at a concrete pair of overlapping intervals. -/
theorem clip_symm_contained_witness :
    clip ⟨0, 10⟩ ⟨5, 20⟩ = clip ⟨5, 20⟩ ⟨0, 10⟩ ∧
    (∀ c, clip ⟨0, 10⟩ ⟨5, 20⟩ = some c →
      ((Interval.mk 0 10).start ≤ c.start ∧ c.stop ≤ (Interval.mk 0 10).stop) ∧
      ((Interval.mk 5 20).start ≤ c.start ∧ c.stop ≤ (Interval.mk 5 20).stop) ∧
      c.start < c.stop) ∧
    (max (Interval.mk 0 10).start (Interval.mk 5 20).start ≥
        min (Interval.mk 0 10).stop (Interval.mk 5 20).stop →
      clip ⟨0, 10⟩ ⟨5, 20⟩ = none) :=
  clip_symm_contained ⟨0, 10⟩ ⟨5, 20⟩

instance : IsTotal Interval (fun a b => a.start ≤ b.start) :=
  ⟨fun a b => le_total a.start b.start⟩

instance : IsTrans Interval (fun a b => a.start ≤ b.start) :=
  ⟨fun _ _ _ h h2 => le_trans h h2⟩

theorem mergeAux_head (cur : Interval) (xs : List Interval) :
    ∃ e tail, mergeAux cur xs = ⟨cur.start, e⟩ :: tail ∧ cur.stop ≤ e := by
  induction xs generalizing cur with
  | nil => exact ⟨cur.stop, [], rfl, le_refl _⟩
  | cons iv rest ih =>
    by_cases h : cur.stop < iv.start
    · exact ⟨cur.stop, mergeAux iv rest, by simp [mergeAux, h], le_refl _⟩
    · obtain ⟨e, tail, heq, hle⟩ := ih ⟨cur.start, max cur.stop iv.stop⟩
      exact ⟨e, tail, by simp [mergeAux, h, heq],
        le_trans (le_max_left _ _) hle⟩

theorem mergeAux_start_lb (cur : Interval) (xs : List Interval)
    (hlb : ∀ iv ∈ xs, cur.start ≤ iv.start)
    (hsorted : List.Pairwise (fun a b => a.start ≤ b.start) xs) :
    ∀ jv ∈ mergeAux cur xs, cur.start ≤ jv.start := by
  induction xs generalizing cur with
  | nil =>
    intro jv hm
    simp only [mergeAux, List.mem_singleton] at hm
    simp [hm]
  | cons iv rest ih =>
    rcases List.pairwise_cons.mp hsorted with ⟨hiv, hrest⟩
    intro jv hm
    by_cases h : cur.stop < iv.start
    · simp only [mergeAux, if_pos h, List.mem_cons] at hm
      rcases hm with rfl | hm
      · exact le_refl _
      · exact le_trans (hlb iv (by simp)) (ih iv hiv hrest jv hm)
    · simp only [mergeAux, if_neg h] at hm
      exact ih ⟨cur.start, max cur.stop iv.stop⟩
        (fun kv hk => hlb kv (List.mem_cons_of_mem iv hk)) hrest jv hm

theorem mergeAux_wf (cur : Interval) (xs : List Interval)
    (hcur : cur.start < cur.stop) (hwf : ∀ iv ∈ xs, iv.start < iv.stop) :
    ∀ jv ∈ mergeAux cur xs, jv.start < jv.stop := by
  induction xs generalizing cur with
  | nil =>
    intro jv hm
    simp only [mergeAux, List.mem_singleton] at hm
    simp [hm, hcur]
  | cons iv rest ih =>
    intro jv hm
    by_cases h : cur.stop < iv.start
    · simp only [mergeAux, if_pos h, List.mem_cons] at hm
      rcases hm with rfl | hm
      · exact hcur
      · exact ih iv (hwf iv (by simp))
          (fun kv hk => hwf kv (List.mem_cons_of_mem iv hk)) jv hm
    · simp only [mergeAux, if_neg h] at hm
      exact ih ⟨cur.start, max cur.stop iv.stop⟩
        (lt_of_lt_of_le hcur (le_max_left _ _))
        (fun kv hk => hwf kv (List.mem_cons_of_mem iv hk)) jv hm

theorem mergeAux_gap (cur : Interval) (xs : List Interval)
    (hlb : ∀ iv ∈ xs, cur.start ≤ iv.start)
    (hsorted : List.Pairwise (fun a b => a.start ≤ b.start) xs) :
    List.Pairwise (fun a b => a.stop < b.start) (mergeAux cur xs) := by
  induction xs generalizing cur with
  | nil => simp [mergeAux]
  | cons iv rest ih =>
    rcases List.pairwise_cons.mp hsorted with ⟨hiv, hrest⟩
    by_cases h : cur.stop < iv.start
    · simp only [mergeAux, if_pos h]
      refine List.pairwise_cons.mpr ⟨?_, ih iv hiv hrest⟩
      intro jv hm
      exact lt_of_lt_of_le h (mergeAux_start_lb iv rest hiv hrest jv hm)
    · simp only [mergeAux, if_neg h]
      exact ih ⟨cur.start, max cur.stop iv.stop⟩
        (fun kv hk => hlb kv (List.mem_cons_of_mem iv hk)) hrest

theorem mergeAux_covered (cur : Interval) (xs : List Interval)
    (hlb : ∀ iv ∈ xs, cur.start ≤ iv.start)
    (hsorted : List.Pairwise (fun a b => a.start ≤ b.start) xs) :
    covered (mergeAux cur xs) = Finset.Ico cur.start cur.stop ∪ covered xs := by
  induction xs generalizing cur with
  | nil => simp [mergeAux, covered]
  | cons iv rest ih =>
    rcases List.pairwise_cons.mp hsorted with ⟨hiv, hrest⟩
    by_cases h : cur.stop < iv.start
    · simp only [mergeAux, if_pos h]
      have : covered (cur :: mergeAux iv rest) =
          Finset.Ico cur.start cur.stop ∪ covered (mergeAux iv rest) := by
        simp [covered]
      rw [this, ih iv hiv hrest]
      simp [covered, Finset.union_assoc]
    · simp only [mergeAux, if_neg h]
      rw [ih ⟨cur.start, max cur.stop iv.stop⟩
        (fun kv hk => hlb kv (List.mem_cons_of_mem iv hk)) hrest]
      have hcs : cur.start ≤ iv.start := hlb iv (by simp)
      have hend : iv.start ≤ cur.stop := not_lt.mp h
      have : Finset.Ico cur.start (max cur.stop iv.stop) =
          Finset.Ico cur.start cur.stop ∪ Finset.Ico iv.start iv.stop := by
        ext x
        simp only [Finset.mem_Ico, Finset.mem_union]
        omega
      rw [this]
      simp [covered, Finset.union_assoc]

theorem covered_eq_of_perm {l1 l2 : List Interval} (h : l1.Perm l2) :
    covered l1 = covered l2 := by
  ext x
  simp only [mem_covered]
  constructor
  · rintro ⟨iv, hm, hx⟩
    exact ⟨iv, h.mem_iff.mp hm, hx⟩
  · rintro ⟨iv, hm, hx⟩
    exact ⟨iv, h.mem_iff.mpr hm, hx⟩

theorem covered_card_of_gap (l : List Interval)
    (hwf : ∀ iv ∈ l, iv.start < iv.stop)
    (hgap : List.Pairwise (fun a b => a.stop < b.start) l) :
    ((covered l).card : Int) = durSum l := by
  induction l with
  | nil => simp [covered, durSum]
  | cons a t ih =>
    rcases List.pairwise_cons.mp hgap with ⟨ha, ht⟩
    have hcov : covered (a :: t) = Finset.Ico a.start a.stop ∪ covered t := by
      simp [covered]
    have hdisj : Disjoint (Finset.Ico a.start a.stop) (covered t) := by
      rw [Finset.disjoint_left]
      intro x hx hxc
      obtain ⟨iv, hm, hs, _⟩ := mem_covered.mp hxc
      have := ha iv hm
      simp only [Finset.mem_Ico] at hx
      omega
    rw [hcov, Finset.card_union_of_disjoint hdisj]
    have hwa : a.start < a.stop := hwf a (by simp)
    have : ((Finset.Ico a.start a.stop).card : Int) = a.stop - a.start := by
      rw [Int.card_Ico, Int.toNat_of_nonneg (by omega)]
    push_cast
    rw [this, ih (fun iv hm => hwf iv (List.mem_cons_of_mem a hm)) ht]
    simp [durSum]

theorem sortByStart_sorted (l : List Interval) :
    List.Pairwise (fun a b => a.start ≤ b.start) (sortByStart l) :=
  List.sorted_insertionSort _ l

theorem sortByStart_perm (l : List Interval) : (sortByStart l).Perm l :=
  List.perm_insertionSort _ l

/-- C5: for inputs satisfying the Interval invariant start < stop,
merge_overlaps returns a list in which every consecutive pair has a strictly
positive gap (hence sorted by start and pairwise non-overlapping, touching
intervals having been combined), every output interval is non-degenerate,
the set of instants covered is exactly that covered by the inputs, and the
total covered duration equals the measure of the union of the inputs. -/
theorem merge_overlaps_spec (l : List Interval)
    (hwf : ∀ iv ∈ l, iv.start < iv.stop) :
    List.Pairwise (fun a b => a.stop < b.start) (merge_overlaps l) ∧
    (∀ iv ∈ merge_overlaps l, iv.start < iv.stop) ∧
    covered (merge_overlaps l) = covered l ∧
    durSum (merge_overlaps l) = ((covered l).card : Int) := by
  have hperm := sortByStart_perm l
  have hsorted := sortByStart_sorted l
  unfold merge_overlaps
  cases hs : sortByStart l with
  | nil =>
    have : l = [] := (List.Perm.nil_eq (hs ▸ hperm)).symm
    subst this
    simp [covered, durSum]
  | cons x xs =>
    rw [hs] at hperm hsorted
    rcases List.pairwise_cons.mp hsorted with ⟨hx, hxs⟩
    have hwf' : ∀ iv ∈ x :: xs, iv.start < iv.stop :=
      fun iv hm => hwf iv (hperm.mem_iff.mp hm)
    have hgap := mergeAux_gap x xs hx hxs
    have hwfo := mergeAux_wf x xs (hwf' x (by simp))
      (fun iv hm => hwf' iv (List.mem_cons_of_mem x hm))
    have hcov : covered (mergeAux x xs) = covered l := by
      rw [mergeAux_covered x xs hx hxs]
      have : covered (x :: xs) =
          Finset.Ico x.start x.stop ∪ covered xs := by simp [covered]
      rw [← this]
      exact covered_eq_of_perm hperm
    refine ⟨hgap, hwfo, hcov, ?_⟩
    rw [← hcov]
    exact (covered_card_of_gap _ hwfo hgap).symm

/-- Witness for C5 at a concrete list of overlapping and touching intervals. -/
theorem merge_overlaps_spec_witness :
    (∀ iv ∈ [Interval.mk 5 7, Interval.mk 0 3, Interval.mk 3 4, Interval.mk 1 2],
        iv.start < iv.stop) ∧
    List.Pairwise (fun a b => a.stop < b.start)
      (merge_overlaps [Interval.mk 5 7, Interval.mk 0 3, Interval.mk 3 4, Interval.mk 1 2]) ∧
    (∀ iv ∈ merge_overlaps [Interval.mk 5 7, Interval.mk 0 3, Interval.mk 3 4, Interval.mk 1 2],
        iv.start < iv.stop) ∧
    covered (merge_overlaps [Interval.mk 5 7, Interval.mk 0 3, Interval.mk 3 4, Interval.mk 1 2]) =
      covered [Interval.mk 5 7, Interval.mk 0 3, Interval.mk 3 4, Interval.mk 1 2] ∧
    durSum (merge_overlaps [Interval.mk 5 7, Interval.mk 0 3, Interval.mk 3 4, Interval.mk 1 2]) =
      ((covered [Interval.mk 5 7, Interval.mk 0 3, Interval.mk 3 4, Interval.mk 1 2]).card : Int) :=
  ⟨by decide, merge_overlaps_spec _ (by decide)⟩

/-- Status segment from app/utils/segments.py (dataclass Seg; field end is
renamed stop). status is "active" or "inactive". -/
structure Seg where
  start : Int
  stop : Int
  status : String
deriving DecidableEq, Repr

/-- A ping for one store: (timestamp_utc, status). -/
abbrev PingT := Int × String

instance : IsTotal PingT (fun a b => a.1 ≤ b.1) := ⟨fun a b => le_total a.1 b.1⟩

instance : IsTrans PingT (fun a b => a.1 ≤ b.1) := ⟨fun _ _ _ h h2 => le_trans h h2⟩

/-- Chronological order on a store's pings, as produced by ORDER BY
timestamp_utc ascending (stable on ties, which the source leaves arbitrary). -/
def sortByTs (pings : List PingT) : List PingT :=
  List.insertionSort (fun a b => a.1 ≤ b.1) pings

/-- The rows query of status_segments: pings of the store with
start ≤ timestamp_utc < stop, ascending by timestamp. -/
def rows_in (pings : List PingT) (s e : Int) : List PingT :=
  (sortByTs pings).filter (fun p => s ≤ p.1 ∧ p.1 < e)

/-- The prev query of status_segments: the latest ping strictly before the
range start (ORDER BY timestamp_utc DESC LIMIT 1). -/
def prev_ping (pings : List PingT) (s : Int) : Option PingT :=
  ((sortByTs pings).filter (fun p => p.1 < s)).getLast?

/-- Initial status selection of status_segments (lines 46-51 of
app/utils/segments.py): seed ping status if present, else the first in-range
ping status, else none (caller then emits the single inactive segment). -/
def init_status : Option PingT → List PingT → Option String
  | some p, _ => some p.2
  | none, r :: _ => some r.2
  | none, [] => none

/-- The cursor walk of status_segments: close a segment whenever a ping lies
strictly after the cursor, then move the cursor to the ping and adopt its
status; after the rows, emit the tail segment up to the range end if the
cursor has not reached it. -/
def segLoop (e : Int) : Int → String → List PingT → List Seg
  | cursor, curr, [] => if cursor < e then [⟨cursor, e, curr⟩] else []
  | cursor, curr, p :: rest =>
    if cursor < p.1 then ⟨cursor, p.1, curr⟩ :: segLoop e p.1 p.2 rest
    else segLoop e p.1 p.2 rest

/-- status_segments from app/utils/segments.py, over the store's ping list. -/
def status_segments (pings : List PingT) (s e : Int) : List Seg :=
  if s ≥ e then []
  else
    match init_status (prev_ping pings s) (rows_in pings s e) with
    | none => [⟨s, e, "inactive"⟩]
    | some curr => segLoop e s curr (rows_in pings s e)

/-- segs exactly partition [a, b): the first starts at a, each segment starts
where the previous one stopped, and the last stops at b. -/
def chainFrom : Int → List Seg → Int → Prop
  | a, [], b => a = b
  | a, sg :: rest, b => sg.start = a ∧ chainFrom sg.stop rest b

instance instDecChainFrom : (a : Int) → (l : List Seg) → (b : Int) →
    Decidable (chainFrom a l b)
  | a, [], b => inferInstanceAs (Decidable (a = b))
  | a, sg :: rest, b =>
    have := instDecChainFrom sg.stop rest b
    inferInstanceAs (Decidable (sg.start = a ∧ chainFrom sg.stop rest b))

/-- Sum of the signed lengths of a list of segments. -/
def segSum (l : List Seg) : Int :=
  l.foldr (fun sg acc => (sg.stop - sg.start) + acc) 0

theorem chainFrom_segSum {a b : Int} {l : List Seg} (h : chainFrom a l b) :
    segSum l = b - a := by
  induction l generalizing a with
  | nil => simp only [chainFrom] at h; simp [segSum, h]
  | cons sg rest ih =>
    obtain ⟨hs, hrest⟩ := h
    have := ih hrest
    simp only [segSum, List.foldr_cons] at this ⊢
    omega

theorem segLoop_chainFrom (e : Int) (rows : List PingT) :
    ∀ (cursor : Int) (curr : String), cursor < e →
    (∀ p ∈ rows, p.1 < e) →
    (∀ p ∈ rows, cursor ≤ p.1) →
    List.Pairwise (fun p q => p.1 ≤ q.1) rows →
    chainFrom cursor (segLoop e cursor curr rows) e := by
  induction rows with
  | nil =>
    intro cursor curr hce _ _ _
    unfold segLoop
    rw [if_pos hce]
    exact ⟨rfl, rfl⟩
  | cons p rest ih =>
    intro cursor curr hce hlt hlb hsorted
    rcases List.pairwise_cons.mp hsorted with ⟨hp, hrest⟩
    have hpe : p.1 < e := hlt p (by simp)
    by_cases h : cursor < p.1
    · simp only [segLoop, if_pos h]
      exact ⟨rfl, ih p.1 p.2 hpe
        (fun q hq => hlt q (List.mem_cons_of_mem p hq)) hp hrest⟩
    · simp only [segLoop, if_neg h]
      have : p.1 = cursor := le_antisymm (not_lt.mp h) (hlb p (by simp))
      rw [← this]
      exact ih p.1 p.2 hpe
        (fun q hq => hlt q (List.mem_cons_of_mem p hq)) hp hrest

theorem segLoop_wf (e : Int) (rows : List PingT) :
    ∀ (cursor : Int) (curr : String), cursor < e →
    (∀ p ∈ rows, p.1 < e) →
    ∀ sg ∈ segLoop e cursor curr rows, sg.start < sg.stop := by
  induction rows with
  | nil =>
    intro cursor curr hce _ sg hm
    simp only [segLoop, if_pos hce, List.mem_singleton] at hm
    simp [hm, hce]
  | cons p rest ih =>
    intro cursor curr hce hlt sg hm
    have hpe : p.1 < e := hlt p (by simp)
    by_cases h : cursor < p.1
    · simp only [segLoop, if_pos h, List.mem_cons] at hm
      rcases hm with rfl | hm
      · exact h
      · exact ih p.1 p.2 hpe
          (fun q hq => hlt q (List.mem_cons_of_mem p hq)) sg hm
    · simp only [segLoop, if_neg h] at hm
      exact ih p.1 p.2 hpe
        (fun q hq => hlt q (List.mem_cons_of_mem p hq)) sg hm

theorem rows_in_mem {pings : List PingT} {s e : Int} {p : PingT} :
    p ∈ rows_in pings s e ↔ p ∈ pings ∧ s ≤ p.1 ∧ p.1 < e := by
  unfold rows_in
  rw [List.mem_filter]
  constructor
  · rintro ⟨hm, hc⟩
    have := (List.perm_insertionSort (fun a b : PingT => a.1 ≤ b.1) pings).mem_iff.mp hm
    simp only [decide_eq_true_eq] at hc
    exact ⟨this, hc⟩
  · rintro ⟨hm, hc⟩
    refine ⟨(List.perm_insertionSort (fun a b : PingT => a.1 ≤ b.1) pings).mem_iff.mpr hm, ?_⟩
    simp only [decide_eq_true_eq]
    exact hc

theorem rows_in_sorted (pings : List PingT) (s e : Int) :
    List.Pairwise (fun p q : PingT => p.1 ≤ q.1) (rows_in pings s e) :=
  List.Pairwise.filter _ (List.sorted_insertionSort _ pings)

/-- C1: for any ping history and any range with start < end, status_segments
returns a non-empty list of non-degenerate segments that exactly partition
[s, e): the first starts at s, each next segment starts where the previous
stopped, the last stops at e, and the lengths sum to e - s. -/
theorem status_segments_partition (pings : List PingT) (s e : Int) (h : s < e) :
    chainFrom s (status_segments pings s e) e ∧
    status_segments pings s e ≠ [] ∧
    (∀ sg ∈ status_segments pings s e, sg.start < sg.stop) ∧
    segSum (status_segments pings s e) = e - s := by
  have hne : ¬ s ≥ e := not_le.mpr h
  have hmain : chainFrom s (status_segments pings s e) e ∧
      (∀ sg ∈ status_segments pings s e, sg.start < sg.stop) := by
    unfold status_segments
    rw [if_neg hne]
    cases hinit : init_status (prev_ping pings s) (rows_in pings s e) with
    | none =>
      refine ⟨⟨rfl, rfl⟩, ?_⟩
      intro sg hm
      simp only [List.mem_singleton] at hm
      simp [hm, h]
    | some curr =>
      have hlt : ∀ p ∈ rows_in pings s e, p.1 < e :=
        fun p hp => (rows_in_mem.mp hp).2.2
      have hlb : ∀ p ∈ rows_in pings s e, s ≤ p.1 :=
        fun p hp => (rows_in_mem.mp hp).2.1
      exact ⟨segLoop_chainFrom e (rows_in pings s e) s curr h hlt hlb
          (rows_in_sorted pings s e),
        segLoop_wf e (rows_in pings s e) s curr h hlt⟩
  obtain ⟨hch, hwf⟩ := hmain
  refine ⟨hch, ?_, hwf, chainFrom_segSum hch⟩
  intro hnil
  rw [hnil] at hch
  simp only [chainFrom] at hch
  omega

/-- Witness for C1 at a concrete ping history and range. -/
theorem status_segments_partition_witness :
    (0 : Int) < 100 ∧
    (chainFrom 0 (status_segments [(40, "inactive"), (-5, "active"), (40, "active")] 0 100) 100 ∧
     status_segments [(40, "inactive"), (-5, "active"), (40, "active")] 0 100 ≠ [] ∧
     (∀ sg ∈ status_segments [(40, "inactive"), (-5, "active"), (40, "active")] 0 100,
        sg.start < sg.stop) ∧
     segSum (status_segments [(40, "inactive"), (-5, "active"), (40, "active")] 0 100) = 100 - 0) :=
  ⟨by decide,
   status_segments_partition [(40, "inactive"), (-5, "active"), (40, "active")] 0 100 (by decide)⟩

theorem getLast?_max {l : List PingT} {a : PingT}
    (hs : List.Pairwise (fun p q : PingT => p.1 ≤ q.1) l)
    (h : l.getLast? = some a) : a ∈ l ∧ ∀ q ∈ l, q.1 ≤ a.1 := by
  induction l with
  | nil => simp at h
  | cons x xs ih =>
    cases xs with
    | nil =>
      simp only [List.getLast?_singleton, Option.some.injEq] at h
      subst h
      simp
    | cons y ys =>
      rw [List.getLast?_cons_cons] at h
      rcases List.pairwise_cons.mp hs with ⟨hx, hrest⟩
      obtain ⟨hm, hmax⟩ := ih hrest h
      refine ⟨List.mem_cons_of_mem x hm, ?_⟩
      intro q hq
      rcases List.mem_cons.mp hq with rfl | hq
      · exact hx a hm
      · exact hmax q hq

theorem prev_filter_mem {pings : List PingT} {s : Int} {p : PingT} :
    p ∈ (sortByTs pings).filter (fun p => p.1 < s) ↔ p ∈ pings ∧ p.1 < s := by
  rw [List.mem_filter]
  constructor
  · rintro ⟨hm, hc⟩
    exact ⟨(List.perm_insertionSort (fun a b : PingT => a.1 ≤ b.1) pings).mem_iff.mp hm,
      by simpa using hc⟩
  · rintro ⟨hm, hc⟩
    exact ⟨(List.perm_insertionSort (fun a b : PingT => a.1 ≤ b.1) pings).mem_iff.mpr hm,
      by simpa using hc⟩

/-- C6: the seeding of the step function. When a seed ping (latest ping
strictly before the range start) exists, the initial status is its status;
otherwise, when some ping lies inside the range, the initial status is the
status of the earliest in-range ping; otherwise status_segments returns the
single inactive segment covering the whole range. -/
theorem status_segments_seed (pings : List PingT) (s e : Int) (h : s < e) :
    (∀ p, prev_ping pings s = some p →
      p ∈ pings ∧ p.1 < s ∧ (∀ q ∈ pings, q.1 < s → q.1 ≤ p.1) ∧
      init_status (prev_ping pings s) (rows_in pings s e) = some p.2) ∧
    (prev_ping pings s = none → ∀ r rs, rows_in pings s e = r :: rs →
      r ∈ pings ∧ s ≤ r.1 ∧ r.1 < e ∧
      (∀ q ∈ pings, s ≤ q.1 → q.1 < e → r.1 ≤ q.1) ∧
      init_status (prev_ping pings s) (rows_in pings s e) = some r.2) ∧
    ((∀ q ∈ pings, ¬ q.1 < s) → (∀ q ∈ pings, ¬ (s ≤ q.1 ∧ q.1 < e)) →
      status_segments pings s e = [⟨s, e, "inactive"⟩]) := by
  refine ⟨?_, ?_, ?_⟩
  · intro p hp
    have hs : List.Pairwise (fun p q : PingT => p.1 ≤ q.1)
        ((sortByTs pings).filter (fun p => p.1 < s)) :=
      List.Pairwise.filter _ (List.sorted_insertionSort _ pings)
    obtain ⟨hm, hmax⟩ := getLast?_max hs hp
    obtain ⟨hmp, hps⟩ := prev_filter_mem.mp hm
    refine ⟨hmp, hps, ?_, by rw [hp]; rfl⟩
    intro q hq hqs
    exact hmax q (prev_filter_mem.mpr ⟨hq, hqs⟩)
  · intro hnone r rs hrows
    have hsorted := rows_in_sorted pings s e
    rw [hrows] at hsorted
    rcases List.pairwise_cons.mp hsorted with ⟨hr, _⟩
    have hrm : r ∈ rows_in pings s e := by rw [hrows]; simp
    obtain ⟨hmp, hrs, hre⟩ := rows_in_mem.mp hrm
    refine ⟨hmp, hrs, hre, ?_, by rw [hnone, hrows]; rfl⟩
    intro q hq hqs hqe
    have hqm : q ∈ rows_in pings s e := rows_in_mem.mpr ⟨hq, hqs, hqe⟩
    rw [hrows] at hqm
    rcases List.mem_cons.mp hqm with rfl | hqm
    · exact le_refl _
    · exact hr q hqm
  · intro hseed hin
    have hprev : prev_ping pings s = none := by
      unfold prev_ping
      rw [List.getLast?_eq_none_iff, List.filter_eq_nil_iff]
      intro q hq
      have := hseed q
        ((List.perm_insertionSort (fun a b : PingT => a.1 ≤ b.1) pings).mem_iff.mp hq)
      simpa using this
    have hrows : rows_in pings s e = [] := by
      unfold rows_in
      rw [List.filter_eq_nil_iff]
      intro q hq
      have := hin q
        ((List.perm_insertionSort (fun a b : PingT => a.1 ≤ b.1) pings).mem_iff.mp hq)
      simpa using this
    unfold status_segments
    rw [if_neg (not_le.mpr h), hprev, hrows]
    rfl

/-- Witness for C6 at a concrete ping history with a seed ping. -/
theorem status_segments_seed_witness :
    (0 : Int) < 100 ∧
    ((∀ p, prev_ping [(-7, "active"), (-3, "inactive"), (50, "active")] 0 = some p →
      p ∈ [((-7 : Int), "active"), (-3, "inactive"), (50, "active")] ∧ p.1 < 0 ∧
      (∀ q ∈ [((-7 : Int), "active"), (-3, "inactive"), (50, "active")],
        q.1 < 0 → q.1 ≤ p.1) ∧
      init_status (prev_ping [(-7, "active"), (-3, "inactive"), (50, "active")] 0)
        (rows_in [(-7, "active"), (-3, "inactive"), (50, "active")] 0 100) = some p.2) ∧
    (prev_ping [(-7, "active"), (-3, "inactive"), (50, "active")] 0 = none →
      ∀ r rs, rows_in [(-7, "active"), (-3, "inactive"), (50, "active")] 0 100 = r :: rs →
      r ∈ [((-7 : Int), "active"), (-3, "inactive"), (50, "active")] ∧ 0 ≤ r.1 ∧ r.1 < 100 ∧
      (∀ q ∈ [((-7 : Int), "active"), (-3, "inactive"), (50, "active")],
        0 ≤ q.1 → q.1 < 100 → r.1 ≤ q.1) ∧
      init_status (prev_ping [(-7, "active"), (-3, "inactive"), (50, "active")] 0)
        (rows_in [(-7, "active"), (-3, "inactive"), (50, "active")] 0 100) = some r.2) ∧
    ((∀ q ∈ [((-7 : Int), "active"), (-3, "inactive"), (50, "active")], ¬ q.1 < 0) →
      (∀ q ∈ [((-7 : Int), "active"), (-3, "inactive"), (50, "active")],
        ¬ ((0 : Int) ≤ q.1 ∧ q.1 < 100)) →
      status_segments [(-7, "active"), (-3, "inactive"), (50, "active")] 0 100 =
        [⟨0, 100, "inactive"⟩])) :=
  ⟨by decide, status_segments_seed [(-7, "active"), (-3, "inactive"), (50, "active")] 0 100 (by decide)⟩

/-- A business-hours row for one store: day_of_week (0 = Monday) and the
parsed local open and close times as microseconds after local midnight. -/
structure HoursRec where
  dow : Nat
  start_local : Int
  end_local : Int
deriving DecidableEq, Repr

/-- Local midnight of the local calendar day containing a local instant
(Python day_local.date(), with floor division for instants before the epoch). -/
def dayFloor (t : Int) : Int := usPerDay * (t.fdiv usPerDay)

/-- Python datetime.weekday of the local day containing a local instant:
0 = Monday; day 0 of the epoch (1970-01-01) was a Thursday, weekday 3. -/
def weekday (t : Int) : Nat := ((t.fdiv usPerDay + 3).emod 7).toNat

/-- local_window_to_utc from app/utils/windows.py over a fixed-offset zone
(off = local minus UTC, in microseconds). Same-day windows give one interval;
overnight windows (open after close) split into the piece up to
time(23, 59, 59, 999999) of the day and the piece from midnight of the next
day up to the close time. -/
def local_window_to_utc (dayLocal st et off : Int) : List Interval :=
  let base := dayFloor dayLocal
  if st ≤ et then
    [⟨base + st - off, base + et - off⟩]
  else
    [⟨base + st - off, base + endOfDayUs - off⟩,
     ⟨base + usPerDay - off, base + usPerDay + et - off⟩]

/-- business_windows_utc from app/utils/windows.py. The weekly schedule is
the per-store list of business-hours rows (the dict built by _hours_map keyed
by day of week, empty exactly when this list is empty); lookups by day keep
row order. The day walk visits local midnights from the local date of the
range start while they are at or before the local instant of the range end. -/
def business_windows_utc (hours : List HoursRec) (off ws we : Int) :
    List Interval :=
  if ws ≥ we then []
  else if hours.isEmpty then [⟨ws, we⟩]
  else
    let curLocal := ws + off
    let endLocal := we + off
    let day0 := dayFloor curLocal
    let nDays := ((endLocal - day0).fdiv usPerDay).toNat + 1
    let days := (List.range nDays).map (fun i => day0 + usPerDay * i)
    merge_overlaps (days.flatMap (fun day =>
      ((hours.filter (fun r => r.dow = weekday day)).map
          (fun r => (r.start_local, r.end_local))).flatMap (fun pr =>
        (local_window_to_utc day pr.1 pr.2 off).filterMap
          (fun iv => clip iv ⟨ws, we⟩))))

/-- The claimed total: the spec asserts the overnight pair for (23:00, 02:00)
covers exactly 3 hours. The code ends the first piece at
time(23, 59, 59, 999999), one microsecond before midnight, so the pair covers
3 hours minus one microsecond; this counterexample evaluates the builder at a
concrete day in a fixed-offset zone. -/
theorem overnight_not_exactly_three_hours :
    durSum (local_window_to_utc 0 (23 * usPerHour) (2 * usPerHour) 0) ≠
      3 * usPerHour := by decide

/-- C2 amended: for every local day and every fixed-offset zone (no DST
transition in effect), the overnight schedule entry (23:00, 02:00) yields two
intervals whose total duration is 3 hours minus one microsecond, the first
piece ending at 23:59:59.999999 local rather than midnight. -/
theorem overnight_duration (dayLocal off : Int) :
    durSum (local_window_to_utc dayLocal (23 * usPerHour) (2 * usPerHour) off) =
      3 * usPerHour - 1 := by
  unfold local_window_to_utc
  rw [if_neg (by norm_num [usPerHour])]
  simp only [durSum, List.foldr_cons, List.foldr_nil]
  norm_num [usPerHour, usPerDay, endOfDayUs]

/-- C7: for every fixed-offset zone and every non-degenerate range, a totally
empty weekly schedule makes the builder return the single full-range interval
(open 24x7). -/
theorem business_windows_empty_schedule (off ws we : Int) (h : ws < we) :
    business_windows_utc [] off ws we = [⟨ws, we⟩] := by
  unfold business_windows_utc
  rw [if_neg (not_le.mpr h)]
  rfl

/-- Witness for C7 at a concrete offset and range. -/
theorem business_windows_empty_schedule_witness :
    (0 : Int) < 50 ∧ business_windows_utc [] 7 0 50 = [⟨0, 50⟩] :=
  ⟨by decide, business_windows_empty_schedule 7 0 50 (by decide)⟩

/-- C8: degenerate ranges (start at or after end) are not errors: both the
business-window builder and the status-segment builder return the empty
list, for every schedule, offset and ping history. -/
theorem degenerate_range_empty (hours : List HoursRec) (off : Int)
    (pings : List PingT) (ws we : Int) (h : ws ≥ we) :
    business_windows_utc hours off ws we = [] ∧
    status_segments pings ws we = [] := by
  constructor
  · unfold business_windows_utc
    rw [if_pos h]
  · unfold status_segments
    rw [if_pos h]

/-- Witness for C8 at a concrete degenerate range. -/
theorem degenerate_range_empty_witness :
    (10 : Int) ≥ 10 ∧
    (business_windows_utc [⟨0, 0, usPerHour⟩] 5 10 10 = [] ∧
     status_segments [(3, "active")] 10 10 = []) :=
  ⟨by decide, degenerate_range_empty [⟨0, 0, usPerHour⟩] 5 [(3, "active")] 10 10 (by decide)⟩

/-- Fractional minutes represented exactly: microseconds divided by the
microseconds in a minute. -/
def minutesQ (d : Int) : ℚ := (d : ℚ) / 60000000

/-- One iteration of the inner loop of _accumulate in
app/services/compute.py: intersect one business window with one segment and,
when non-empty, add the duration in minutes to the active or inactive total
according to the segment status. -/
def accumStep (bw : Interval) (acc : ℚ × ℚ) (sg : Seg) : ℚ × ℚ :=
  let s := max bw.start sg.start
  let e := min bw.stop sg.stop
  if s ≥ e then acc
  else if sg.status = "active" then (acc.1 + minutesQ (e - s), acc.2)
  else (acc.1, acc.2 + minutesQ (e - s))

/-- _accumulate from app/services/compute.py: double loop over business
windows and segments, returning (active_minutes, inactive_minutes). -/
def accumulate (segs : List Seg) (biz : List Interval) : ℚ × ℚ :=
  biz.foldl (fun acc bw => segs.foldl (accumStep bw) acc) (0, 0)

/-- Clamped overlap of one window with one segment, in minutes. -/
def clampQ (bw : Interval) (sg : Seg) : ℚ :=
  if max bw.start sg.start ≥ min bw.stop sg.stop then 0
  else minutesQ (min bw.stop sg.stop - max bw.start sg.start)

/-- Total overlap of one window with a list of segments, in minutes. -/
def segContrib (bw : Interval) (segs : List Seg) : ℚ :=
  segs.foldr (fun sg acc => clampQ bw sg + acc) 0

/-- Total overlap of a list of windows with a list of segments, in minutes. -/
def bizContrib (biz : List Interval) (segs : List Seg) : ℚ :=
  biz.foldr (fun bw acc => segContrib bw segs + acc) 0

theorem minutesQ_add (a b : Int) : minutesQ (a + b) = minutesQ a + minutesQ b := by
  unfold minutesQ
  push_cast
  ring

theorem minutesQ_zero : minutesQ 0 = 0 := by
  unfold minutesQ
  norm_num

theorem accumStep_sum (bw : Interval) (acc : ℚ × ℚ) (sg : Seg) :
    (accumStep bw acc sg).1 + (accumStep bw acc sg).2 =
      acc.1 + acc.2 + clampQ bw sg := by
  simp only [accumStep, clampQ]
  split_ifs <;> simp <;> ring

theorem accum_inner_sum (bw : Interval) (segs : List Seg) :
    ∀ acc : ℚ × ℚ,
      (segs.foldl (accumStep bw) acc).1 + (segs.foldl (accumStep bw) acc).2 =
        acc.1 + acc.2 + segContrib bw segs := by
  induction segs with
  | nil =>
    intro acc
    simp [segContrib]
  | cons sg rest ih =>
    intro acc
    simp only [List.foldl_cons, segContrib, List.foldr_cons]
    rw [ih (accumStep bw acc sg), accumStep_sum]
    simp only [segContrib]
    ring

theorem accum_outer_sum (segs : List Seg) (biz : List Interval) :
    ∀ acc : ℚ × ℚ,
      ((biz.foldl (fun acc bw => segs.foldl (accumStep bw) acc) acc).1 +
       (biz.foldl (fun acc bw => segs.foldl (accumStep bw) acc) acc).2) =
        acc.1 + acc.2 + bizContrib biz segs := by
  induction biz with
  | nil =>
    intro acc
    simp [bizContrib]
  | cons bw rest ih =>
    intro acc
    simp only [List.foldl_cons, bizContrib, List.foldr_cons]
    rw [ih (segs.foldl (accumStep bw) acc), accum_inner_sum]
    simp only [bizContrib]
    ring

theorem chainFrom_le {a b : Int} {l : List Seg} (h : chainFrom a l b)
    (hwf : ∀ sg ∈ l, sg.start < sg.stop) : a ≤ b := by
  induction l generalizing a with
  | nil =>
    simp only [chainFrom] at h
    omega
  | cons sg rest ih =>
    obtain ⟨hs, hrest⟩ := h
    have h1 := hwf sg (by simp)
    have h2 := ih hrest (fun q hq => hwf q (List.mem_cons_of_mem sg hq))
    omega

theorem segContrib_chain (bw : Interval) (l : List Seg) :
    ∀ a hi, chainFrom a l hi → (∀ sg ∈ l, sg.start < sg.stop) →
      segContrib bw l = minutesQ (max 0 (min bw.stop hi - max bw.start a)) := by
  induction l with
  | nil =>
    intro a hi h _
    simp only [chainFrom] at h
    subst h
    have : max 0 (min bw.stop a - max bw.start a) = 0 := by omega
    simp [segContrib, this, minutesQ_zero]
  | cons sg rest ih =>
    intro a hi h hwf
    obtain ⟨hs, hrest⟩ := h
    have hwfr : ∀ q ∈ rest, q.start < q.stop :=
      fun q hq => hwf q (List.mem_cons_of_mem sg hq)
    have ham : a < sg.stop := hs ▸ hwf sg (by simp)
    have hmh : sg.stop ≤ hi := chainFrom_le hrest hwfr
    simp only [segContrib, List.foldr_cons]
    have hrec := ih sg.stop hi hrest hwfr
    simp only [segContrib] at hrec
    rw [hrec]
    unfold clampQ
    subst hs
    split
    · rename_i hcond
      rw [zero_add]
      congr 1
      omega
    · rename_i hcond
      rw [← minutesQ_add]
      congr 1
      omega

/-- C10: when the segments exactly partition the query range [lo, hi) and
every business window is non-degenerate and contained in the range (windows
pairwise disjoint, as merge produces after clipping), the accumulator's
active and inactive minutes sum to the total business-window duration in
minutes: every business-window minute is counted exactly once. -/
theorem accumulate_counts_each_minute_once (segs : List Seg)
    (biz : List Interval) (lo hi : Int)
    (hch : chainFrom lo segs hi)
    (hwfs : ∀ sg ∈ segs, sg.start < sg.stop)
    (_hdisj : List.Pairwise (fun a b : Interval =>
      a.stop ≤ b.start ∨ b.stop ≤ a.start) biz)
    (hsub : ∀ bw ∈ biz, lo ≤ bw.start ∧ bw.start < bw.stop ∧ bw.stop ≤ hi) :
    (accumulate segs biz).1 + (accumulate segs biz).2 = minutesQ (durSum biz) := by
  unfold accumulate
  rw [accum_outer_sum]
  simp only [zero_add]
  clear _hdisj
  induction biz with
  | nil => simp [bizContrib, durSum, minutesQ_zero]
  | cons bw rest ih =>
    have hbw := hsub bw (by simp)
    have hrest := ih (fun q hq => hsub q (List.mem_cons_of_mem bw hq))
    simp only [bizContrib, List.foldr_cons, durSum] at hrest ⊢
    rw [hrest, segContrib_chain bw segs lo hi hch hwfs]
    rw [← minutesQ_add]
    congr 1
    omega

/-- Witness for C10: a one-hour range split into an active and an inactive
half hour, with a single business window equal to the whole range. -/
theorem accumulate_counts_each_minute_once_witness :
    chainFrom 0 [⟨0, 30 * usPerMin, "active"⟩, ⟨30 * usPerMin, 60 * usPerMin, "inactive"⟩]
        (60 * usPerMin) ∧
    (∀ sg ∈ [Seg.mk 0 (30 * usPerMin) "active",
             Seg.mk (30 * usPerMin) (60 * usPerMin) "inactive"], sg.start < sg.stop) ∧
    List.Pairwise (fun a b : Interval => a.stop ≤ b.start ∨ b.stop ≤ a.start)
      [Interval.mk 0 (60 * usPerMin)] ∧
    (∀ bw ∈ [Interval.mk 0 (60 * usPerMin)],
      (0 : Int) ≤ bw.start ∧ bw.start < bw.stop ∧ bw.stop ≤ 60 * usPerMin) ∧
    (accumulate [⟨0, 30 * usPerMin, "active"⟩, ⟨30 * usPerMin, 60 * usPerMin, "inactive"⟩]
        [⟨0, 60 * usPerMin⟩]).1 +
      (accumulate [⟨0, 30 * usPerMin, "active"⟩, ⟨30 * usPerMin, 60 * usPerMin, "inactive"⟩]
        [⟨0, 60 * usPerMin⟩]).2 =
      minutesQ (durSum [⟨0, 60 * usPerMin⟩]) :=
  ⟨by decide, by decide, by decide, by decide,
   accumulate_counts_each_minute_once _ _ 0 (60 * usPerMin)
     (by decide) (by decide) (by decide) (by decide)⟩

/-- A row of the store_status table: store, UTC timestamp, status. -/
structure PingRec where
  store_id : Nat
  ts : Int
  status : String
deriving DecidableEq, Repr

/-- A row of the store_timezone table; the zone is modelled by its fixed
offset (local minus UTC, microseconds), the default being America/Chicago. -/
structure TZRec where
  store_id : Nat
  off : Int
deriving DecidableEq, Repr

/-- A row of the business_hours table with times already parsed. -/
structure HoursRow where
  store_id : Nat
  dow : Nat
  start_local : Int
  end_local : Int
deriving DecidableEq, Repr

/-- The database contents read by compute_and_write_csv. -/
structure DB where
  pings : List PingRec
  tzs : List TZRec
  hours : List HoursRow
deriving DecidableEq, Repr

/-- DEFAULT_TZ = America/Chicago, modelled as its standard offset UTC-6. -/
def DEFAULT_OFF : Int := -6 * usPerHour

/-- _tz_for: the store's timezone record looked up by primary key, defaulting
to DEFAULT_TZ when absent. -/
def tz_for (db : DB) (sid : Nat) : Int :=
  match (db.tzs.filter (fun t => t.store_id = sid)).head? with
  | some t => t.off
  | none => DEFAULT_OFF

/-- _hours_map: the business-hours rows of one store, in row order; the map
built by the source is empty exactly when this list is empty, and its lookup
for a day of week returns the pairs of the rows with that day. -/
def hours_map (db : DB) (sid : Nat) : List HoursRec :=
  (db.hours.filter (fun r => r.store_id = sid)).map
    (fun r => ⟨r.dow, r.start_local, r.end_local⟩)

/-- The ping history of one store, as (timestamp, status) pairs. -/
def store_pings (db : DB) (sid : Nat) : List PingT :=
  (db.pings.filter (fun p => p.store_id = sid)).map (fun p => (p.ts, p.status))

/-- _max_now: SELECT max(timestamp_utc) over all pings of all stores, which
is NULL exactly when the table is empty (the source then raises). -/
def max_now (db : DB) : Option Int := (db.pings.map (fun p => p.ts)).max?

/-- _store_ids: sorted set union of the stores appearing in store_status and
the stores having a store_timezone record. -/
def store_ids (db : DB) : List Nat :=
  ((db.pings.map (fun p => p.store_id)).toFinset ∪
    (db.tzs.map (fun t => t.store_id)).toFinset).sort (· ≤ ·)

/-- The three lookback ranges of compute_and_write_csv. -/
def last_hour (now : Int) : Int × Int := (now - usPerHour, now)

/-- Trailing-day range. -/
def last_day (now : Int) : Int × Int := (now - usPerDay, now)

/-- Trailing-week range. -/
def last_week (now : Int) : Int × Int := (now - 7 * usPerDay, now)

/-- One output row (uptime in minutes for the hour and hours for day and
week, downtime mirrored); the source's rounding of the printed floats to two
decimals is display formatting and is not modelled. -/
structure ReportRow where
  store_id : Nat
  uptime_last_hour : ℚ
  uptime_last_day : ℚ
  uptime_last_week : ℚ
  downtime_last_hour : ℚ
  downtime_last_day : ℚ
  downtime_last_week : ℚ
deriving DecidableEq, Repr

/-- The per-store body of the loop in compute_and_write_csv: build business
windows and status segments for the three ranges, accumulate, and emit the
row. -/
def mk_row (db : DB) (now : Int) (sid : Nat) : ReportRow :=
  let off := tz_for db sid
  let hrs := hours_map db sid
  let pings := store_pings db sid
  let ah := accumulate (status_segments pings (last_hour now).1 (last_hour now).2)
    (business_windows_utc hrs off (last_hour now).1 (last_hour now).2)
  let ad := accumulate (status_segments pings (last_day now).1 (last_day now).2)
    (business_windows_utc hrs off (last_day now).1 (last_day now).2)
  let aw := accumulate (status_segments pings (last_week now).1 (last_week now).2)
    (business_windows_utc hrs off (last_week now).1 (last_week now).2)
  { store_id := sid
    uptime_last_hour := ah.1
    uptime_last_day := ad.1 / 60
    uptime_last_week := aw.1 / 60
    downtime_last_hour := ah.2
    downtime_last_day := ad.2 / 60
    downtime_last_week := aw.2 / 60 }

/-- The ordered rows of one report run for a fixed now. -/
def report_rows (db : DB) (now : Int) : List ReportRow :=
  (store_ids db).map (mk_row db now)

/-- compute_and_write_csv up to the CSV writing: fails as a precondition
failure when no ping exists anywhere, else computes now and the rows. -/
def compute_report (db : DB) : Except String (List ReportRow) :=
  match max_now db with
  | none => Except.error "No observations in store_status."
  | some now => Except.ok (report_rows db now)

/-- C3: the report contains exactly one row per known store - the union of
stores having at least one ping and stores having a timezone record - and
the rows are in strictly ascending store-id order. -/
theorem report_rows_one_per_known_store (db : DB) (now : Int) :
    (report_rows db now).map (fun r => r.store_id) = store_ids db ∧
    List.Pairwise (fun a b : Nat => a < b)
      ((report_rows db now).map (fun r => r.store_id)) ∧
    (∀ sid, sid ∈ (report_rows db now).map (fun r => r.store_id) ↔
      ((∃ p ∈ db.pings, p.store_id = sid) ∨ (∃ t ∈ db.tzs, t.store_id = sid))) := by
  have h1 : (report_rows db now).map (fun r => r.store_id) = store_ids db := by
    unfold report_rows
    rw [List.map_map]
    have : ((fun r : ReportRow => r.store_id) ∘ mk_row db now) = fun sid => sid := by
      funext sid
      rfl
    rw [this, List.map_id']
  refine ⟨h1, ?_, ?_⟩
  · rw [h1]
    exact Finset.sort_sorted_lt _
  · intro sid
    rw [h1]
    unfold store_ids
    rw [Finset.mem_sort, Finset.mem_union, List.mem_toFinset, List.mem_toFinset,
      List.mem_map, List.mem_map]

/-- Witness for C3 at a concrete database: store 7 has only a ping, store 2
only a timezone record, store 5 both. -/
theorem report_rows_one_per_known_store_witness :
    (report_rows ⟨[⟨7, 10, "active"⟩, ⟨5, 20, "inactive"⟩],
        [⟨2, 0⟩, ⟨5, usPerHour⟩], []⟩ 20).map (fun r => r.store_id) =
      store_ids ⟨[⟨7, 10, "active"⟩, ⟨5, 20, "inactive"⟩], [⟨2, 0⟩, ⟨5, usPerHour⟩], []⟩ ∧
    List.Pairwise (fun a b : Nat => a < b)
      ((report_rows ⟨[⟨7, 10, "active"⟩, ⟨5, 20, "inactive"⟩],
        [⟨2, 0⟩, ⟨5, usPerHour⟩], []⟩ 20).map (fun r => r.store_id)) ∧
    (∀ sid, sid ∈ (report_rows ⟨[⟨7, 10, "active"⟩, ⟨5, 20, "inactive"⟩],
        [⟨2, 0⟩, ⟨5, usPerHour⟩], []⟩ 20).map (fun r => r.store_id) ↔
      ((∃ p ∈ [PingRec.mk 7 10 "active", PingRec.mk 5 20 "inactive"], p.store_id = sid) ∨
       (∃ t ∈ [TZRec.mk 2 0, TZRec.mk 5 usPerHour], t.store_id = sid))) :=
  report_rows_one_per_known_store
    ⟨[⟨7, 10, "active"⟩, ⟨5, 20, "inactive"⟩], [⟨2, 0⟩, ⟨5, usPerHour⟩], []⟩ 20

/-- C9: report generation fails exactly when no ping exists anywhere; with at
least one ping, now is the maximum ping timestamp across all stores, the
report is computed at that now, and the three lookback ranges are
[now - 1h, now), [now - 1d, now) and [now - 7d, now). -/
theorem compute_report_precondition (db : DB) :
    ((∃ msg, compute_report db = Except.error msg) ↔ db.pings = []) ∧
    (∀ now, max_now db = some now →
      (∃ p ∈ db.pings, p.ts = now) ∧ (∀ p ∈ db.pings, p.ts ≤ now) ∧
      compute_report db = Except.ok (report_rows db now)) ∧
    (∀ now, last_hour now = (now - usPerHour, now) ∧
      last_day now = (now - usPerDay, now) ∧
      last_week now = (now - 7 * usPerDay, now)) := by
  refine ⟨?_, ?_, fun now => ⟨rfl, rfl, rfl⟩⟩
  · constructor
    · rintro ⟨msg, hmsg⟩
      unfold compute_report at hmsg
      cases hmax : max_now db with
      | none =>
        unfold max_now at hmax
        rw [List.max?_eq_none_iff] at hmax
        exact List.map_eq_nil_iff.mp hmax
      | some now => rw [hmax] at hmsg; exact absurd hmsg (by simp)
    · intro hnil
      refine ⟨"No observations in store_status.", ?_⟩
      unfold compute_report max_now
      rw [hnil]
      rfl
  · intro now hnow
    have hchar : now ∈ db.pings.map (fun p => p.ts) ∧
        ∀ b ∈ db.pings.map (fun p => p.ts), b ≤ now := by
      rw [← @List.max?_eq_some_iff Int now _ _
        ⟨fun h1 h2 => le_antisymm h1 h2⟩ le_refl max_choice
        (fun _ _ _ => max_le_iff)]
      exact hnow
    obtain ⟨hmem, hub⟩ := hchar
    obtain ⟨p, hp, hps⟩ := List.mem_map.mp hmem
    refine ⟨⟨p, hp, hps⟩, ?_, ?_⟩
    · intro q hq
      exact hub q.ts (List.mem_map.mpr ⟨q, hq, rfl⟩)
    · unfold compute_report
      rw [hnow]

/-- Witness for C9 at a concrete database with two pings. -/
theorem compute_report_precondition_witness :
    ((∃ msg, compute_report ⟨[⟨1, 10, "active"⟩, ⟨3, 25, "inactive"⟩], [], []⟩ =
        Except.error msg) ↔
      ([⟨1, 10, "active"⟩, ⟨3, 25, "inactive"⟩] : List PingRec) = []) ∧
    (∀ now, max_now ⟨[⟨1, 10, "active"⟩, ⟨3, 25, "inactive"⟩], [], []⟩ = some now →
      (∃ p ∈ [PingRec.mk 1 10 "active", PingRec.mk 3 25 "inactive"], p.ts = now) ∧
      (∀ p ∈ [PingRec.mk 1 10 "active", PingRec.mk 3 25 "inactive"], p.ts ≤ now) ∧
      compute_report ⟨[⟨1, 10, "active"⟩, ⟨3, 25, "inactive"⟩], [], []⟩ =
        Except.ok (report_rows ⟨[⟨1, 10, "active"⟩, ⟨3, 25, "inactive"⟩], [], []⟩ now)) ∧
    (∀ now, last_hour now = (now - usPerHour, now) ∧
      last_day now = (now - usPerDay, now) ∧
      last_week now = (now - 7 * usPerDay, now)) :=
  compute_report_precondition ⟨[⟨1, 10, "active"⟩, ⟨3, 25, "inactive"⟩], [], []⟩

end StoreMonitor
